import Mathlib

/-!
# Verification of the Mood-To-Memories data model and derived views

A shallow embedding of `script.js` of the mood-journaling application.
JavaScript arrays are modelled as Lean lists, plain string-keyed objects
used as dictionaries are modelled as association lists (in insertion
order, matching JS enumeration order for non-numeric keys) or as partial
maps, `localStorage` slots holding JSON snapshots are modelled as
`Option`-valued slots whose round-trip through serialization is the
identity on well-formed data, and `Date.prototype.toDateString` day
bucketing is modelled by an explicit day-index function on epoch
timestamps.  JS `toLowerCase` and `trim` are modelled at the character
level (faithful on the ASCII range the application manipulates).  Every
definition mirrors the corresponding function of `script.js`; the
theorems about them follow after all definitions.
-/

namespace M2M

/-- Model of JS `String.prototype.toLowerCase` (ASCII-faithful). -/
def jsToLower (s : String) : String := ⟨s.data.map Char.toLower⟩

/-- Model of JS `String.prototype.trim`: strip leading and trailing
whitespace. -/
def jsTrim (s : String) : String :=
  ⟨((s.data.dropWhile Char.isWhitespace).reverse.dropWhile Char.isWhitespace).reverse⟩

/-- A mood definition, mirroring the `{ name, icon, color }` objects of
`moodList` in `script.js`. -/
structure Mood where
  name : String
  icon : String
  color : String
deriving Repr, DecidableEq

/-- A journal entry, mirroring the `{ mood, text, timestamp }` objects of
`entries` in `script.js`; `timestamp` is the `Date.now()` epoch value. -/
structure Entry where
  mood : String
  text : String
  timestamp : Nat
deriving Repr, DecidableEq

/-- `builtInMoodNames` from `script.js`: built-in moods that cannot be
removed. -/
def builtInMoodNames : List String := ["Happy", "Sad", "Angry", "Excited", "Calm"]

/-- The default mood list seeded by `loadMoodList` when no saved registry
exists. -/
def defaultMoods : List Mood :=
  [ ⟨"Happy", "fa-smile-beam", "#6c63ff"⟩,
    ⟨"Sad", "fa-frown", "#f77754"⟩,
    ⟨"Angry", "fa-angry", "#ff9a56"⟩,
    ⟨"Excited", "fa-grin-stars", "#f0c808"⟩,
    ⟨"Calm", "fa-spa", "#55c57a"⟩ ]

/-- The first filter pass of `loadMoodList`: drop moods whose trimmed name
is empty, or whose trimmed lower-cased name is the reserved placeholder
"gg" or "gg gg". -/
def stripPlaceholders (ms : List Mood) : List Mood :=
  ms.filter fun m =>
    let name := jsTrim m.name
    ¬(name = "" ∨ jsToLower name = "gg" ∨ jsToLower name = "gg gg")

/-- The second filter pass of `loadMoodList`: keep a mood only if its
(exact) `name` has not been seen before, mirroring the `seen` set in
`script.js`. -/
def dedupByName (seen : List String) : List Mood → List Mood
  | [] => []
  | m :: rest =>
    if m.name ∈ seen then dedupByName seen rest
    else m :: dedupByName (m.name :: seen) rest

/-- `loadMoodList` from `script.js`: read the persisted registry (`none`
models an absent `m2mMoods` slot, in which case the 5 built-ins are
seeded), strip placeholder names, then de-duplicate by exact name with
first occurrence winning. -/
def loadMoodList (saved : Option (List Mood)) : List Mood :=
  dedupByName [] (stripPlaceholders (saved.getD defaultMoods))

/-- `deleteMood` from `script.js`: a no-op on built-in mood names,
otherwise remove every mood whose name equals the argument. -/
def deleteMood (ml : List Mood) (name : String) : List Mood :=
  if name ∈ builtInMoodNames then ml
  else ml.filter (fun m => m.name ≠ name)

/-- The in-place update performed by `addCustomMood` when `find` locates
an existing mood with the same lower-cased name: the first such mood gets
the new color and the fixed custom icon `fa-heart`; everything else is
untouched. -/
def upsertFirst (name color : String) : List Mood → List Mood
  | [] => []
  | m :: rest =>
    if jsToLower m.name = jsToLower name then
      { m with color := color, icon := "fa-heart" } :: rest
    else m :: upsertFirst name color rest

/-- `addCustomMood` from `script.js`: no-op on an empty name; update the
first case-insensitive name match in place if one exists; otherwise
append a new custom mood with the default icon `fa-heart`. -/
def addCustomMood (ml : List Mood) (name color : String) : List Mood :=
  if name = "" then ml
  else if ml.any (fun m => jsToLower m.name = jsToLower name) then upsertFirst name color ml
  else ml ++ [⟨name, "fa-heart", color⟩]

/-- Model of `Date.prototype.toDateString` as a calendar-day bucket of an
epoch-milliseconds timestamp: two timestamps produce the same string iff
they fall on the same calendar day, modelled by the day index
`ts / 86400000` (a fixed-offset calendar). -/
def dateStringOf (ts : Nat) : Nat := ts / 86400000

/-- The Entry Store state: the in-memory `entries` array plus the
`m2mEntries` `localStorage` slot.  The JSON serialization of the slot is
abstracted away: the slot holds the parsed list (`none` models an absent
slot). -/
structure StoreState where
  entries : List Entry
  saved : Option (List Entry)
deriving Repr, DecidableEq

/-- `saveEntries` from `script.js`: serialize the full collection into
the `m2mEntries` slot. -/
def saveEntries (es : List Entry) : Option (List Entry) := some es

/-- `loadEntries` from `script.js`: read the `m2mEntries` slot, yielding
`[]` when the slot is absent. -/
def loadEntries (slot : Option (List Entry)) : List Entry := slot.getD []

/-- The deletion performed by the per-card delete button in
`renderEntries`: `findIndex` on the timestamp followed by `splice(idx, 1)`
removes the first entry whose timestamp equals the argument. -/
def removeFirstByTimestamp : List Entry → Nat → List Entry
  | [], _ => []
  | e :: rest, ts => if e.timestamp = ts then rest else e :: removeFirstByTimestamp rest ts

/-- An Entry Store mutation: `add` is the submit handler's
`entries.push(entry)`, `remove` is the delete button's
`findIndex`/`splice` on a timestamp. -/
inductive EntryOp where
  | add (e : Entry)
  | remove (ts : Nat)
deriving Repr, DecidableEq

/-- One Entry Store mutation as performed by `script.js`: both the submit
handler and the delete button call `saveEntries()` right after mutating
`entries`; the delete button only mutates (and saves) when `findIndex`
found the timestamp. -/
def applyEntryOp (s : StoreState) : EntryOp → StoreState
  | .add e =>
      let es := s.entries ++ [e]
      ⟨es, saveEntries es⟩
  | .remove ts =>
      if s.entries.any (fun e => e.timestamp = ts) then
        let es := removeFirstByTimestamp s.entries ts
        ⟨es, saveEntries es⟩
      else s

/-- Run a sequence of Entry Store mutations. -/
def runEntryOps (s : StoreState) (ops : List EntryOp) : StoreState :=
  ops.foldl applyEntryOp s

/-- The `counts` dictionary of `updateChart` after its initialization
loop: every registry mood name is a key with value 0. -/
def initCounts (ml : List Mood) : String → Option Nat :=
  fun n => if n ∈ ml.map Mood.name then some 0 else none

/-- One step of the `entries.forEach` loop of `updateChart`: increment
`counts[e.mood]` only when that key is present. -/
def applyEntryCount (c : String → Option Nat) (e : Entry) : String → Option Nat :=
  match c e.mood with
  | some _ => fun n => if n = e.mood then (c n).map (· + 1) else c n
  | none => c

/-- `updateChart` from `script.js`, restricted to the data it hands the
chart: for each registry mood, in registry order, the final value of
`counts[m.name] || 0`. -/
def updateChartData (ml : List Mood) (es : List Entry) : List Nat :=
  ml.map fun m => ((es.foldl applyEntryCount (initCounts ml)) m.name).getD 0

/-- The per-entry gate of `renderEntries`: skip the entry when
`filterMood` is set and differs from the entry's mood, or when
`filterDate` is set and falls on a different calendar day. -/
def passesFilters (fm : Option String) (fd : Option Nat) (e : Entry) : Bool :=
  (match fm with
   | none => true
   | some m => e.mood = m) &&
  (match fd with
   | none => true
   | some d => dateStringOf e.timestamp = dateStringOf d)

/-- The `entries.slice().sort((a, b) => b.timestamp - a.timestamp)` of
`renderEntries`: a stable sort by timestamp descending. -/
def sortByTimestampDesc (es : List Entry) : List Entry :=
  es.mergeSort (fun a b => b.timestamp ≤ a.timestamp)

/-- `renderEntries` from `script.js`, restricted to the list of entry
cards it renders: sort descending by timestamp, then keep the entries
passing both filters. -/
def renderEntriesList (es : List Entry) (fm : Option String) (fd : Option Nat) : List Entry :=
  (sortByTimestampDesc es).filter (passesFilters fm fd)

/-- `initChart`'s `onClick` handler: clicking a chart bar toggles
`filterMood` — clear it when it already equals the clicked mood, set it
otherwise. -/
def chartClick (fm : Option String) (selected : String) : Option String :=
  if fm = some selected then none else some selected

/-- `updateCalendar`'s cell click handler: toggle `filterDate` — clear it
when the current filter date falls on the clicked day, set it to the
clicked day's date key otherwise. -/
def calendarClick (fd : Option Nat) (dateKey : Nat) : Option Nat :=
  match fd with
  | some d => if dateStringOf d = dateStringOf dateKey then none else some dateKey
  | none => some dateKey

/-- The entries of one calendar day, as filtered inside `updateCalendar`
(and `generateMixtureFeelingForDate`): same-calendar-day matching. -/
def dayEntries (es : List Entry) (d : Nat) : List Entry :=
  es.filter (fun e => dateStringOf e.timestamp = d)

/-- `dayMoods` of `updateCalendar`: the moods of the day's entries. -/
def dayMoods (es : List Entry) (d : Nat) : List String :=
  (dayEntries es d).map Entry.mood

/-- One step of `Array.from(new Set(...))` insertion order. -/
def insertUnique (acc : List String) (s : String) : List String :=
  if s ∈ acc then acc else acc ++ [s]

/-- `Array.from(new Set(l))`: unique elements in first-seen order. -/
def uniqueFirst (l : List String) : List String := l.foldl insertUnique []

/-- The color dots rendered by `updateCalendar` for one day: the first 3
unique moods (first-seen order), each resolved against the registry and
dropped when its name is not registered. -/
def calendarDots (ml : List Mood) (es : List Entry) (d : Nat) : List Mood :=
  ((uniqueFirst (dayMoods es d)).take 3).filterMap
    (fun n => ml.find? (fun m => m.name = n))

/-- `updateCalendar`'s mixture-summary trigger: `dayMoods.length >= 4`. -/
def mixtureThresholdMet (es : List Entry) (d : Nat) : Bool :=
  4 ≤ (dayMoods es d).length

/-- The guard inside `generateMixtureFeelingForDate`: it bails out (returns
null) when the day has fewer than 4 entries. -/
def mixtureEligible (es : List Entry) (d : Nat) : Bool :=
  !((dayEntries es d).length < 4)

/-- One character of a JS regex word (`\\w`, i.e. [A-Za-z0-9_]), the
boundary alphabet of the `\\b[a-z]\x7b3,\x7d\\b` token pattern used by
`updateTrending` and `updateWordCloud`. -/
def isWordChar (c : Char) : Bool := c.isAlpha || c.isDigit || c = '_'

/-- Split a character list into its maximal word-character runs, the
candidate matches scanned by `match` with a `\\b...\\b` pattern. -/
def wordRuns (cur : List Char) : List Char → List (List Char)
  | [] => if cur.isEmpty then [] else [cur.reverse]
  | c :: rest =>
    if isWordChar c then wordRuns (c :: cur) rest
    else if cur.isEmpty then wordRuns [] rest
    else cur.reverse :: wordRuns [] rest

/-- A maximal word run matches `\\b[a-z]\x7b3,\x7d\\b` iff it consists of
lowercase letters only and has length at least 3. -/
def isWordToken (w : List Char) : Bool := 3 ≤ w.length && w.all Char.isLower

/-- `entry.text.toLowerCase().match(/\\b[a-z]\x7b3,\x7d\\b/g)` of
`updateTrending`/`updateWordCloud`, as the list of matched tokens. -/
def tokensOf (text : String) : List String :=
  ((wordRuns [] (jsToLower text).data).filter isWordToken).map (fun cs => ⟨cs⟩)

/-- `freq[w] = (freq[w] || 0) + 1` on a JS object modelled as an
association list in key-insertion order (the enumeration order of
`Object.entries` for these non-numeric keys). -/
def bumpWord : List (String × Nat) → String → List (String × Nat)
  | [], w => [(w, 1)]
  | (k, c) :: rest, w => if k = w then (k, c + 1) :: rest else (k, c) :: bumpWord rest w

/-- The word→count dictionary built by the nested `forEach` loops of
`updateTrending` and `updateWordCloud`, parametrized by the stopword
set. -/
def wordFreq (stop : List String) (es : List Entry) : List (String × Nat) :=
  es.foldl (fun freq e =>
    (tokensOf e.text).foldl (fun f w => if w ∈ stop then f else bumpWord f w) freq) []

/-- The stopword set of `updateTrending` (19 words). -/
def trendingStopwords : List String :=
  ["the", "and", "to", "is", "it", "in", "a", "of", "on", "for", "with", "that",
   "this", "today", "i", "was", "my", "me", "at"]

/-- The stopword set of `updateWordCloud` (24 words): the trending set
plus "had", "have", "has", "you", "we". -/
def wordCloudStopwords : List String :=
  ["the", "and", "to", "is", "it", "in", "a", "of", "on", "for", "with", "that",
   "this", "today", "i", "was", "my", "me", "at", "had", "have", "has", "you", "we"]

/-- `Object.entries(freq).sort((a, b) => b[1] - a[1])`: a stable sort of
the dictionary entries by count descending. -/
def rankWords (freq : List (String × Nat)) : List (String × Nat) :=
  freq.mergeSort (fun a b => b.2 ≤ a.2)

/-- `updateTrending` from `script.js`, restricted to the ranked word list
it renders: top 5 by count of its own word→count map. -/
def updateTrending (es : List Entry) : List (String × Nat) :=
  (rankWords (wordFreq trendingStopwords es)).take 5

/-- `updateWordCloud` from `script.js`, restricted to the ranked word
list it renders: top 20 by count of its own word→count map. -/
def updateWordCloud (es : List Entry) : List (String × Nat) :=
  (rankWords (wordFreq wordCloudStopwords es)).take 20

/-- The `entryForm` submit handler of `script.js`: read the selected mood
(`none` models no radio checked) and the trimmed text; silently discard
the submission when the mood is missing/empty or the trimmed text is
empty; otherwise push exactly one new entry and save. -/
def submitEntry (st : StoreState) (mood : Option String) (rawText : String) (now : Nat) :
    StoreState :=
  match mood with
  | none => st
  | some m =>
    if m = "" then st
    else if jsTrim rawText = "" then st
    else
      let es := st.entries ++ [⟨m, jsTrim rawText, now⟩]
      ⟨es, saveEntries es⟩

end M2M

namespace M2M

theorem dedupByName_mem_not_seen (seen : List String) (xs : List Mood) :
    ∀ m ∈ dedupByName seen xs, m.name ∉ seen := by
  induction xs generalizing seen with
  | nil => intro m hm; simp [dedupByName] at hm
  | cons x rest ih =>
    intro m hm
    by_cases hx : x.name ∈ seen
    · simp only [dedupByName, if_pos hx] at hm
      exact ih seen m hm
    · simp only [dedupByName, if_neg hx, List.mem_cons] at hm
      rcases hm with rfl | hm
      · exact hx
      · have := ih (x.name :: seen) m hm
        intro hc
        exact this (List.mem_cons_of_mem _ hc)

theorem dedupByName_names_nodup (seen : List String) (xs : List Mood) :
    ((dedupByName seen xs).map Mood.name).Nodup := by
  induction xs generalizing seen with
  | nil => simp [dedupByName]
  | cons x rest ih =>
    by_cases hx : x.name ∈ seen
    · simpa [dedupByName, if_pos hx] using ih seen
    · simp only [dedupByName, if_neg hx, List.map_cons, List.nodup_cons]
      refine ⟨?_, ih (x.name :: seen)⟩
      intro hc
      rcases List.mem_map.mp hc with ⟨m, hm, hname⟩
      have := dedupByName_mem_not_seen (x.name :: seen) rest m hm
      exact this (by simp [hname])

theorem dedupByName_filter (seen : List String) (xs : List Mood) (n : String) :
    (dedupByName seen xs).filter (fun x => x.name = n) =
      if n ∈ seen then [] else (xs.find? (fun x => x.name = n)).toList := by
  induction xs generalizing seen with
  | nil => simp [dedupByName]
  | cons x rest ih =>
    by_cases hx : x.name ∈ seen
    · rw [dedupByName, if_pos hx, ih]
      by_cases hn : n ∈ seen
      · simp [hn]
      · have hxn : ¬ (x.name = n) := fun h => hn (h ▸ hx)
        rw [if_neg hn, if_neg hn, List.find?_cons_of_neg _ (by simpa using hxn)]
    · rw [dedupByName, if_neg hx]
      by_cases hxn : x.name = n
      · subst hxn
        have h1 : (dedupByName (x.name :: seen) rest).filter (fun y => y.name = x.name) = [] := by
          rw [ih]; simp
        rw [List.filter_cons, if_pos (by simp), h1, if_neg hx,
          List.find?_cons_of_pos _ (by simp)]
        rfl
      · rw [List.filter_cons, if_neg (by simpa using hxn), ih]
        by_cases hn : n ∈ seen
        · rw [if_pos (by simp [hn]), if_pos hn]
        · have hn2 : n ∉ x.name :: seen := by
            simp only [List.mem_cons]
            rintro (h | h)
            · exact hxn h.symm
            · exact hn h
          rw [if_neg hn2, if_neg hn, List.find?_cons_of_neg _ (by simpa using hxn)]

/-- C1 counterexample: the claim asserts de-duplication up to case, but
`loadMoodList` de-duplicates by exact name only.  Persisting the two
case-variant entries "Joy" and "joy" loads a registry that still contains
both of them, not exactly one. -/
theorem C1_counterexample :
    jsToLower "Joy" = jsToLower "joy" ∧
    loadMoodList (some [⟨"Joy", "fa-heart", "#111111"⟩, ⟨"joy", "fa-heart", "#222222"⟩]) =
      [⟨"Joy", "fa-heart", "#111111"⟩, ⟨"joy", "fa-heart", "#222222"⟩] ∧
    (loadMoodList
        (some [⟨"Joy", "fa-heart", "#111111"⟩, ⟨"joy", "fa-heart", "#222222"⟩])).length ≠ 1 := by
  refine ⟨by decide, by decide, by decide⟩

/-- C1 (amended): `loadMoodList` keeps at most one mood per *exact* name:
if the persisted list contains an entry with a given name (surviving
placeholder stripping), the loaded registry contains exactly one entry
with that exact name, namely the first-listed one; and in general the
loaded registry never contains two entries with the same name.  (Case
variants of one name are distinct names and are all kept.) -/
theorem C1_load_dedup_exact_name (saved : List Mood) (n : String)
    (h : (stripPlaceholders saved).any (fun m => m.name = n) = true) :
    ((loadMoodList (some saved)).map Mood.name).Nodup ∧
    ∃ m, (stripPlaceholders saved).find? (fun x => x.name = n) = some m ∧
      (loadMoodList (some saved)).filter (fun x => x.name = n) = [m] := by
  refine ⟨dedupByName_names_nodup [] _, ?_⟩
  rcases List.any_eq_true.mp h with ⟨m0, hm0, hp⟩
  have hsome : ((stripPlaceholders saved).find? (fun x => x.name = n)).isSome := by
    rw [List.find?_isSome]
    exact ⟨m0, hm0, hp⟩
  rcases Option.isSome_iff_exists.mp hsome with ⟨m, hm⟩
  refine ⟨m, hm, ?_⟩
  have := dedupByName_filter [] (stripPlaceholders saved) n
  simp only [List.not_mem_nil, if_neg] at this
  rw [loadMoodList, Option.getD_some] at *
  rw [this, hm]
  rfl

/-- Witness for C1: a registry persisted with two entries both literally
named "Joy" loads with just the first of them. -/
theorem C1_witness :
    ((loadMoodList (some [⟨"Joy", "a", "#1"⟩, ⟨"Joy", "b", "#2"⟩])).map Mood.name).Nodup ∧
    ∃ m, (stripPlaceholders [⟨"Joy", "a", "#1"⟩, ⟨"Joy", "b", "#2"⟩]).find?
            (fun x => x.name = "Joy") = some m ∧
      (loadMoodList (some [⟨"Joy", "a", "#1"⟩, ⟨"Joy", "b", "#2"⟩])).filter
            (fun x => x.name = "Joy") = [m] :=
  C1_load_dedup_exact_name [⟨"Joy", "a", "#1"⟩, ⟨"Joy", "b", "#2"⟩] "Joy" (by decide)

theorem length_filter_name_ne (ml : List Mood) (n : String) :
    (ml.filter (fun m => m.name ≠ n)).length + ml.countP (fun m => m.name = n) = ml.length := by
  induction ml with
  | nil => simp
  | cons x rest ih =>
    rw [List.filter_cons, List.countP_cons]
    by_cases hx : x.name = n
    · rw [if_neg (by simp [hx]), if_pos (by simp [hx])]
      simp only [List.length_cons]
      omega
    · rw [if_pos (by simp [hx]), if_neg (by simp [hx])]
      simp only [List.length_cons]
      omega

theorem countP_name_eq_one (ml : List Mood) (m : Mood)
    (hnd : (ml.map Mood.name).Nodup) (hm : m ∈ ml) :
    ml.countP (fun x => x.name = m.name) = 1 := by
  induction ml with
  | nil => simp at hm
  | cons x rest ih =>
    rw [List.map_cons, List.nodup_cons] at hnd
    rw [List.countP_cons]
    rcases List.mem_cons.mp hm with rfl | hm2
    · have h0 : rest.countP (fun x => x.name = m.name) = 0 := by
        rw [List.countP_eq_zero]
        intro a ha
        simp only [decide_eq_true_eq]
        intro hc
        exact hnd.1 (List.mem_map.mpr ⟨a, ha, hc⟩)
      simp [h0]
    · have hx : ¬ (x.name = m.name) := by
        intro hc
        exact hnd.1 (hc ▸ List.mem_map.mpr ⟨m, hm2, rfl⟩)
      simp only [hx, decide_False, if_false]
      exact ih hnd.2 hm2

/-- C8: on a registry with distinct mood names, `deleteMood` on any of the
5 built-in names is a no-op; on a non-built-in name it reduces the
registry size by exactly 1 when a mood with that name exists and is a
no-op when none does. -/
theorem C8_deleteMood_builtin_protection (ml : List Mood) (name : String)
    (hnd : (ml.map Mood.name).Nodup) :
    (name ∈ builtInMoodNames → deleteMood ml name = ml) ∧
    (name ∉ builtInMoodNames →
      ((∃ m ∈ ml, m.name = name) → (deleteMood ml name).length + 1 = ml.length) ∧
      ((∀ m ∈ ml, m.name ≠ name) → deleteMood ml name = ml)) := by
  constructor
  · intro hb
    rw [deleteMood, if_pos hb]
  · intro hb
    rw [deleteMood, if_neg hb]
    constructor
    · rintro ⟨m, hm, rfl⟩
      have h1 := countP_name_eq_one ml m hnd hm
      have h2 := length_filter_name_ne ml m.name
      omega
    · intro hall
      rw [List.filter_eq_self]
      intro a ha
      simpa using hall a ha

/-- A sample registry: the default registry extended with the custom mood
"Joy". -/
def registryWithJoy : List Mood := defaultMoods ++ [⟨"Joy", "fa-heart", "#abcdef"⟩]

/-- Witness for C8, on the default registry extended with the custom mood
"Joy": removing "Happy" is a no-op, removing "Joy" shrinks the registry
by one, and removing the absent "Zen" is a no-op. -/
theorem C8_witness :
    deleteMood registryWithJoy "Happy" = registryWithJoy ∧
    (deleteMood registryWithJoy "Joy").length + 1 = registryWithJoy.length ∧
    deleteMood registryWithJoy "Zen" = registryWithJoy := by
  have h1 := C8_deleteMood_builtin_protection registryWithJoy "Happy" (by decide)
  have h2 := C8_deleteMood_builtin_protection registryWithJoy "Joy" (by decide)
  have h3 := C8_deleteMood_builtin_protection registryWithJoy "Zen" (by decide)
  refine ⟨h1.1 (by decide), (h2.2 (by decide)).1 ?_, (h3.2 (by decide)).2 (by decide)⟩
  exact ⟨⟨"Joy", "fa-heart", "#abcdef"⟩, by decide, rfl⟩

theorem upsertFirst_decomp (name color : String) (ml : List Mood)
    (h : ml.any (fun m => jsToLower m.name = jsToLower name) = true) :
    ∃ pre m post, ml = pre ++ m :: post ∧
      (∀ x ∈ pre, jsToLower x.name ≠ jsToLower name) ∧
      jsToLower m.name = jsToLower name ∧
      upsertFirst name color ml =
        pre ++ { m with color := color, icon := "fa-heart" } :: post := by
  induction ml with
  | nil => simp at h
  | cons x rest ih =>
    by_cases hx : jsToLower x.name = jsToLower name
    · refine ⟨[], x, rest, by simp, by simp, hx, ?_⟩
      rw [upsertFirst, if_pos hx]
      simp
    · have h2 : rest.any (fun m => jsToLower m.name = jsToLower name) = true := by
        rcases List.any_eq_true.mp h with ⟨m, hm, hp⟩
        rcases List.mem_cons.mp hm with rfl | hm2
        · exact absurd (of_decide_eq_true hp) hx
        · exact List.any_eq_true.mpr ⟨m, hm2, hp⟩
      rcases ih h2 with ⟨pre, m, post, heq, hpre, hm, hup⟩
      refine ⟨x :: pre, m, post, by rw [heq]; rfl, ?_, hm, ?_⟩
      · intro y hy
        rcases List.mem_cons.mp hy with rfl | hy2
        · exact hx
        · exact hpre y hy2
      · rw [upsertFirst, if_neg hx, hup]
        rfl

theorem upsertFirst_length (name color : String) (ml : List Mood) :
    (upsertFirst name color ml).length = ml.length := by
  induction ml with
  | nil => rfl
  | cons x rest ih =>
    rw [upsertFirst]
    by_cases hx : jsToLower x.name = jsToLower name
    · rw [if_pos hx]; rfl
    · rw [if_neg hx]
      simpa using ih

/-- C10: when the (non-empty) name passed to `addCustomMood` matches an
existing registry mood up to lower-casing — built-ins included — the
first such mood is updated in place: its color becomes the given color
and its icon becomes the fixed custom default `fa-heart`; all other moods
and the registry size are unchanged. -/
theorem C10_addCustomMood_upsert (ml : List Mood) (name color : String)
    (hname : name ≠ "")
    (hmatch : ml.any (fun m => jsToLower m.name = jsToLower name) = true) :
    (addCustomMood ml name color).length = ml.length ∧
    ∃ pre m post, ml = pre ++ m :: post ∧
      (∀ x ∈ pre, jsToLower x.name ≠ jsToLower name) ∧
      jsToLower m.name = jsToLower name ∧
      addCustomMood ml name color =
        pre ++ { m with color := color, icon := "fa-heart" } :: post := by
  have hdef : addCustomMood ml name color = upsertFirst name color ml := by
    rw [addCustomMood, if_neg hname, if_pos hmatch]
  rw [hdef]
  exact ⟨upsertFirst_length name color ml, upsertFirst_decomp name color ml hmatch⟩

/-- Witness for C10: upserting "HAPPY" (a case variant of the built-in
"Happy") on the default registry keeps the size at 5 and replaces the
built-in's icon `fa-smile-beam` with `fa-heart`. -/
theorem C10_witness :
    (addCustomMood defaultMoods "HAPPY" "#123456").length = defaultMoods.length ∧
    ∃ pre m post, defaultMoods = pre ++ m :: post ∧
      (∀ x ∈ pre, jsToLower x.name ≠ jsToLower "HAPPY") ∧
      jsToLower m.name = jsToLower "HAPPY" ∧
      addCustomMood defaultMoods "HAPPY" "#123456" =
        pre ++ { m with color := "#123456", icon := "fa-heart" } :: post :=
  C10_addCustomMood_upsert defaultMoods "HAPPY" "#123456" (by decide) (by decide)

theorem foldl_applyEntryCount_some (es : List Entry) (c : String → Option Nat)
    (n : String) (k : Nat) (h : c n = some k) :
    (es.foldl applyEntryCount c) n = some (k + es.countP (fun e => e.mood = n)) := by
  induction es generalizing c k with
  | nil => simpa using h
  | cons e tl ih =>
    rw [List.foldl_cons, List.countP_cons]
    by_cases hme : e.mood = n
    · have hstep : applyEntryCount c e n = some (k + 1) := by
        rw [applyEntryCount, hme, h]
        simp [h]
      rw [ih (applyEntryCount c e) (k + 1) hstep]
      simp [hme]
      omega
    · have hstep : applyEntryCount c e n = some k := by
        rw [applyEntryCount]
        cases hcm : c e.mood with
        | none => exact h
        | some j =>
          simp only []
          rw [if_neg (fun hc => hme hc.symm), h]
      rw [ih (applyEntryCount c e) k hstep]
      simp [hme]

theorem sum_map_nat_add {α : Type} (l : List α) (f g : α → Nat) :
    (l.map fun a => f a + g a).sum = (l.map f).sum + (l.map g).sum := by
  induction l with
  | nil => rfl
  | cons x tl ih =>
    simp only [List.map_cons, List.sum_cons, ih]
    omega

theorem sum_indicator_zero (ml : List Mood) (x : String)
    (hx : x ∉ ml.map Mood.name) :
    (ml.map fun m => if x = m.name then 1 else 0).sum = 0 := by
  induction ml with
  | nil => rfl
  | cons m tl ih =>
    rw [List.map_cons, List.mem_cons] at hx
    push_neg at hx
    simp only [List.map_cons, List.sum_cons, if_neg hx.1, ih hx.2]

theorem sum_indicator (ml : List Mood) (x : String)
    (hnd : (ml.map Mood.name).Nodup) :
    (ml.map fun m => if x = m.name then 1 else 0).sum =
      if x ∈ ml.map Mood.name then 1 else 0 := by
  induction ml with
  | nil => rfl
  | cons m tl ih =>
    rw [List.map_cons, List.nodup_cons] at hnd
    simp only [List.map_cons, List.sum_cons]
    by_cases hx : x = m.name
    · rw [if_pos hx, sum_indicator_zero tl x (hx ▸ hnd.1),
        if_pos (List.mem_cons.mpr (Or.inl hx))]
    · rw [if_neg hx, ih hnd.2]
      by_cases hmem : x ∈ tl.map Mood.name
      · rw [if_pos hmem, if_pos (List.mem_cons.mpr (Or.inr hmem))]
      · have hnot : x ∉ m.name :: tl.map Mood.name := by
          rw [List.mem_cons]
          rintro (h | h)
          · exact hx h
          · exact hmem h
        rw [if_neg hmem, if_neg hnot]

theorem sum_countP_names (ml : List Mood)
    (hnd : (ml.map Mood.name).Nodup) (es : List Entry) :
    (ml.map fun m => es.countP (fun e => e.mood = m.name)).sum =
      es.countP (fun e => e.mood ∈ ml.map Mood.name) := by
  induction es with
  | nil => simp
  | cons e tl ih =>
    have hmap : (ml.map fun m => (e :: tl).countP (fun x => x.mood = m.name)) =
        ml.map fun m =>
          tl.countP (fun x => x.mood = m.name) + if e.mood = m.name then 1 else 0 := by
      apply List.map_congr_left
      intro m _
      rw [List.countP_cons]
      by_cases hme : e.mood = m.name
      · rw [if_pos (by simpa using hme), if_pos hme]
      · rw [if_neg (by simpa using hme), if_neg hme]
    rw [hmap, sum_map_nat_add, ih, sum_indicator ml e.mood hnd, List.countP_cons]
    by_cases hmem : e.mood ∈ ml.map Mood.name
    · rw [if_pos hmem, if_pos (by simpa using hmem)]
    · rw [if_neg hmem, if_neg (by simpa using hmem)]

/-- C3: the chart-data projection of `updateChart` assigns to each
registry mood, in registry order, the number of entries whose mood equals
that mood's name (so a mood matched by no entry gets 0, and entries whose
mood matches no registry mood contribute to no position); on a registry
with distinct names the counts sum to the number of entries whose mood is
a registry name. -/
theorem C3_updateChart_counts (ml : List Mood) (es : List Entry)
    (hnd : (ml.map Mood.name).Nodup) :
    updateChartData ml es = ml.map (fun m => es.countP (fun e => e.mood = m.name)) ∧
    (updateChartData ml es).sum = es.countP (fun e => e.mood ∈ ml.map Mood.name) := by
  have hpoint : updateChartData ml es =
      ml.map (fun m => es.countP (fun e => e.mood = m.name)) := by
    rw [updateChartData]
    apply List.map_congr_left
    intro m hm
    have hinit : initCounts ml m.name = some 0 := by
      rw [initCounts, if_pos (List.mem_map.mpr ⟨m, hm, rfl⟩)]
    rw [foldl_applyEntryCount_some es (initCounts ml) m.name 0 hinit]
    simp
  refine ⟨hpoint, ?_⟩
  rw [hpoint]
  exact sum_countP_names ml hnd es

/-- Witness for C3 on the default registry and a three-entry collection
(two "Happy" entries and one with a dangling mood name). -/
theorem C3_witness :
    updateChartData defaultMoods
        [⟨"Happy", "walk", 1⟩, ⟨"Missing", "rain", 2⟩, ⟨"Happy", "tea", 3⟩] =
      (defaultMoods.map (fun m =>
        ([⟨"Happy", "walk", 1⟩, ⟨"Missing", "rain", 2⟩,
          ⟨"Happy", "tea", 3⟩] : List Entry).countP (fun e => e.mood = m.name))) ∧
    (updateChartData defaultMoods
        [⟨"Happy", "walk", 1⟩, ⟨"Missing", "rain", 2⟩, ⟨"Happy", "tea", 3⟩]).sum =
      ([⟨"Happy", "walk", 1⟩, ⟨"Missing", "rain", 2⟩,
        ⟨"Happy", "tea", 3⟩] : List Entry).countP
          (fun e => e.mood ∈ defaultMoods.map Mood.name) :=
  C3_updateChart_counts defaultMoods
    [⟨"Happy", "walk", 1⟩, ⟨"Missing", "rain", 2⟩, ⟨"Happy", "tea", 3⟩] (by decide)

/-- C4: after any sequence of add/remove mutations of the Entry Store,
`saveEntries` followed by `loadEntries` returns exactly the in-memory
collection held before the save — so in particular a collection equal as
a set, ignoring order. -/
theorem C4_save_load_roundtrip (s : StoreState) (ops : List EntryOp) :
    loadEntries (saveEntries ((runEntryOps s ops).entries)) = (runEntryOps s ops).entries ∧
    ∀ e : Entry, e ∈ loadEntries (saveEntries ((runEntryOps s ops).entries)) ↔
      e ∈ (runEntryOps s ops).entries := by
  exact ⟨rfl, fun e => Iff.rfl⟩

theorem sortByTimestampDesc_pairwise (es : List Entry) :
    (sortByTimestampDesc es).Pairwise (fun a b => b.timestamp ≤ a.timestamp) := by
  have h := @List.sorted_mergeSort Entry
    (fun a b : Entry => decide (b.timestamp ≤ a.timestamp))
    (fun a b c hab hbc => by
      simp only [decide_eq_true_eq] at *
      omega)
    (fun a b => by
      simp only [Bool.or_eq_true, decide_eq_true_eq]
      omega)
    es
  exact h.imp (fun hab => by simpa using hab)

theorem sortByTimestampDesc_perm (es : List Entry) :
    (sortByTimestampDesc es).Perm es :=
  List.mergeSort_perm es _

theorem passesFilters_iff (fm : Option String) (fd : Option Nat) (e : Entry) :
    passesFilters fm fd e = true ↔
      (∀ m, fm = some m → e.mood = m) ∧
      (∀ d, fd = some d → dateStringOf e.timestamp = dateStringOf d) := by
  cases fm <;> cases fd <;> simp [passesFilters]

/-- C5: the filtered timeline of `renderEntries` is sorted by timestamp
descending, is (up to the sort's reordering) the collection of exactly
those entries that pass every active filter — `moodFilter` by exact mood
match, `dateFilter` by same calendar day, an absent filter excluding
nothing — and with both filters absent it is a reverse-chronological
ordering of all entries. -/
theorem C5_renderEntries_filtered_timeline (es : List Entry) (fm : Option String)
    (fd : Option Nat) :
    (renderEntriesList es fm fd).Pairwise (fun a b => b.timestamp ≤ a.timestamp) ∧
    (renderEntriesList es fm fd).Perm (es.filter (passesFilters fm fd)) ∧
    (∀ e, e ∈ renderEntriesList es fm fd ↔
      e ∈ es ∧ (∀ m, fm = some m → e.mood = m) ∧
        (∀ d, fd = some d → dateStringOf e.timestamp = dateStringOf d)) ∧
    (renderEntriesList es none none).Perm es := by
  refine ⟨?_, ?_, ?_, ?_⟩
  · exact (sortByTimestampDesc_pairwise es).sublist (List.filter_sublist _)
  · exact (sortByTimestampDesc_perm es).filter _
  · intro e
    rw [renderEntriesList, List.mem_filter, List.Perm.mem_iff (sortByTimestampDesc_perm es),
      passesFilters_iff]
  · have h2 : es.filter (passesFilters none none) = es := by
      rw [List.filter_eq_self]
      intro a _
      rfl
    have h3 := (sortByTimestampDesc_perm es).filter (passesFilters none none)
    rw [h2] at h3
    exact h3

theorem foldl_insertUnique_mem (l : List String) (acc : List String) (s : String) :
    s ∈ l.foldl insertUnique acc ↔ s ∈ acc ∨ s ∈ l := by
  induction l generalizing acc with
  | nil => simp
  | cons x tl ih =>
    rw [List.foldl_cons, ih]
    have hstep : s ∈ insertUnique acc x ↔ s ∈ acc ∨ s = x := by
      rw [insertUnique]
      by_cases hx : x ∈ acc
      · rw [if_pos hx]
        constructor
        · exact Or.inl
        · rintro (h | rfl)
          · exact h
          · exact hx
      · rw [if_neg hx]
        simp
    rw [hstep, List.mem_cons]
    tauto

theorem foldl_insertUnique_nodup (l : List String) (acc : List String)
    (hacc : acc.Nodup) : (l.foldl insertUnique acc).Nodup := by
  induction l generalizing acc with
  | nil => exact hacc
  | cons x tl ih =>
    rw [List.foldl_cons]
    apply ih
    rw [insertUnique]
    by_cases hx : x ∈ acc
    · rw [if_pos hx]; exact hacc
    · rw [if_neg hx]
      rw [List.nodup_append]
      exact ⟨hacc, List.nodup_singleton x, by simpa using hx⟩

theorem uniqueFirst_nodup (l : List String) : (uniqueFirst l).Nodup :=
  foldl_insertUnique_nodup l [] List.nodup_nil

theorem uniqueFirst_mem (l : List String) (s : String) :
    s ∈ uniqueFirst l ↔ s ∈ l := by
  rw [uniqueFirst, foldl_insertUnique_mem]
  simp

theorem map_filterMap_find_sub {α : Type} (ml : List Mood) (l : List α)
    (f : α → String) : ∀ m ∈ l.filterMap (fun n => ml.find? (fun x => x.name = f n)),
      ∃ n ∈ l, m.name = f n := by
  intro m hm
  rcases List.mem_filterMap.mp hm with ⟨n, hn, hfind⟩
  have hp := List.find?_some hfind
  exact ⟨n, hn, of_decide_eq_true hp⟩

/-- C6: for every calendar day, `updateCalendar` computes the day's set
of unique mood names (same-calendar-day matching, duplicates collapsed,
first-seen order), renders at most 3 color dots whose moods are among the
first 3 unique names, and triggers the mixture-summary path exactly when
the day has at least 4 entries (`generateMixtureFeelingForDate`'s own
guard agreeing); a day holding 4 entries with moods Happy, Happy, Sad,
Calm has unique-mood count 3 and meets the threshold. -/
theorem C6_calendar_grouping (ml : List Mood) (es : List Entry) (d : Nat) :
    ((uniqueFirst (dayMoods es d)).Nodup ∧
      (∀ s, s ∈ uniqueFirst (dayMoods es d) ↔ s ∈ dayMoods es d)) ∧
    ((calendarDots ml es d).length ≤ 3 ∧
      (∀ m ∈ calendarDots ml es d, m.name ∈ (uniqueFirst (dayMoods es d)).take 3)) ∧
    ((mixtureThresholdMet es d = true ↔ 4 ≤ (dayEntries es d).length) ∧
      mixtureThresholdMet es d = mixtureEligible es d) ∧
    (uniqueFirst (dayMoods
        [⟨"Happy", "a", d * 86400000⟩, ⟨"Happy", "b", d * 86400000 + 1⟩,
         ⟨"Sad", "c", d * 86400000 + 2⟩, ⟨"Calm", "e", d * 86400000 + 3⟩] d)).length = 3 ∧
    mixtureThresholdMet
        [⟨"Happy", "a", d * 86400000⟩, ⟨"Happy", "b", d * 86400000 + 1⟩,
         ⟨"Sad", "c", d * 86400000 + 2⟩, ⟨"Calm", "e", d * 86400000 + 3⟩] d = true := by
  have hday : dayMoods
      [⟨"Happy", "a", d * 86400000⟩, ⟨"Happy", "b", d * 86400000 + 1⟩,
       ⟨"Sad", "c", d * 86400000 + 2⟩, ⟨"Calm", "e", d * 86400000 + 3⟩] d =
      ["Happy", "Happy", "Sad", "Calm"] := by
    have hd : ∀ k, k < 4 → dateStringOf (d * 86400000 + k) = d := by
      intro k hk
      rw [dateStringOf, Nat.mul_comm, Nat.mul_add_div (by omega),
        Nat.div_eq_of_lt (by omega : k < 86400000)]
      omega
    have h0 := hd 0 (by omega)
    have h1 := hd 1 (by omega)
    have h2 := hd 2 (by omega)
    have h3 := hd 3 (by omega)
    rw [Nat.add_zero] at h0
    simp [dayMoods, dayEntries, List.filter_cons, h0, h1, h2, h3]
  refine ⟨⟨uniqueFirst_nodup _, fun s => uniqueFirst_mem _ s⟩, ⟨?_, ?_⟩, ⟨?_, ?_⟩, ?_, ?_⟩
  · have hlen := List.length_filterMap_le
      (fun n => ml.find? (fun x => x.name = n)) ((uniqueFirst (dayMoods es d)).take 3)
    have htake : ((uniqueFirst (dayMoods es d)).take 3).length ≤ 3 := by
      rw [List.length_take]
      omega
    rw [calendarDots]
    omega
  · intro m hm
    rcases map_filterMap_find_sub ml ((uniqueFirst (dayMoods es d)).take 3) id m hm
      with ⟨n, hn, hname⟩
    rw [hname]
    exact hn
  · rw [mixtureThresholdMet, dayMoods, List.length_map]
    exact decide_eq_true_iff
  · rw [mixtureThresholdMet, mixtureEligible, dayMoods, List.length_map]
    by_cases h : 4 ≤ (dayEntries es d).length
    · rw [decide_eq_true h, Bool.eq_iff_iff]
      simp
      omega
    · rw [decide_eq_false h, Bool.eq_iff_iff]
      simp
      omega
  · rw [hday]
    rfl
  · rw [mixtureThresholdMet, hday]
    rfl

/-- Witness for C6 (instantiating the bounded quantifiers): on the default
registry and the concrete 4-entry day above, the first rendered dot is the
registry's "Happy" mood, whose name is among the first 3 unique names. -/
theorem C6_witness :
    (⟨"Happy", "fa-smile-beam", "#6c63ff"⟩ : Mood).name ∈
      (uniqueFirst (dayMoods
        [⟨"Happy", "a", 0⟩, ⟨"Happy", "b", 1⟩, ⟨"Sad", "c", 2⟩, ⟨"Calm", "e", 3⟩] 0)).take 3 :=
  ((C6_calendar_grouping defaultMoods
      [⟨"Happy", "a", 0⟩, ⟨"Happy", "b", 1⟩, ⟨"Sad", "c", 2⟩, ⟨"Calm", "e", 3⟩] 0).2.1.2)
    ⟨"Happy", "fa-smile-beam", "#6c63ff"⟩ (by decide)

/-- C7 counterexample: double-clicking the same target is *not* the
identity on the filter state when the filter currently holds a different
value.  With `moodFilter = "Happy"`, clicking the "Sad" bar twice leaves
`moodFilter` cleared (not "Happy"), and the timeline differs from its
contents before the first click. -/
theorem mem_renderEntriesList (es : List Entry) (fm : Option String) (fd : Option Nat)
    (e : Entry) :
    e ∈ renderEntriesList es fm fd ↔ e ∈ es ∧ passesFilters fm fd e = true := by
  rw [renderEntriesList, List.mem_filter, List.Perm.mem_iff (sortByTimestampDesc_perm es)]

theorem C7_counterexample :
    chartClick (chartClick (some "Happy") "Sad") "Sad" ≠ some "Happy" ∧
    renderEntriesList [⟨"Happy", "a", 1⟩, ⟨"Sad", "b", 2⟩]
        (chartClick (chartClick (some "Happy") "Sad") "Sad") none ≠
      renderEntriesList [⟨"Happy", "a", 1⟩, ⟨"Sad", "b", 2⟩] (some "Happy") none := by
  have hcc : chartClick (chartClick (some "Happy") "Sad") "Sad" = none := by decide
  refine ⟨by decide, ?_⟩
  rw [hcc]
  intro heq
  have h1 : (⟨"Sad", "b", 2⟩ : Entry) ∈
      renderEntriesList [⟨"Happy", "a", 1⟩, ⟨"Sad", "b", 2⟩] none none := by
    rw [mem_renderEntriesList]
    exact ⟨by decide, by decide⟩
  rw [heq, mem_renderEntriesList] at h1
  exact absurd h1.2 (by decide)

/-- C7 (amended): double-clicking the same target is the identity on the
filter state exactly when that filter is unset or already matches the
target (for the calendar, "matches" means the stored date falls on the
clicked day, and the state after the two clicks is the clicked day's date
key, which filters the timeline identically); when the filter held a
different value, the two clicks clear it. -/
theorem C7_double_click_toggle (fm : Option String) (s : String)
    (fd : Option Nat) (dk : Nat) (es : List Entry) :
    (chartClick (chartClick fm s) s = if fm = some s then fm else none) ∧
    (calendarClick (calendarClick fd dk) dk =
      match fd with
      | none => none
      | some d => if dateStringOf d = dateStringOf dk then some dk else none) ∧
    ((fm = none ∨ fm = some s) →
      renderEntriesList es (chartClick (chartClick fm s) s) fd =
        renderEntriesList es fm fd) ∧
    (∀ d, fd = some d → dateStringOf d = dateStringOf dk →
      renderEntriesList es fm (calendarClick (calendarClick fd dk) dk) =
        renderEntriesList es fm fd) := by
  have hchart : chartClick (chartClick fm s) s = if fm = some s then fm else none := by
    by_cases h : fm = some s
    · simp [chartClick, h]
    · simp [chartClick, h]
  have hcal : calendarClick (calendarClick fd dk) dk =
      match fd with
      | none => none
      | some d => if dateStringOf d = dateStringOf dk then some dk else none := by
    cases fd with
    | none => simp [calendarClick]
    | some d =>
      by_cases h : dateStringOf d = dateStringOf dk
      · simp [calendarClick, h]
      · simp [calendarClick, h]
  refine ⟨hchart, hcal, ?_, ?_⟩
  · rintro (rfl | rfl)
    · rw [hchart, if_neg (fun hc : (none : Option String) = some s => Option.noConfusion hc)]
    · rw [hchart, if_pos rfl]
  · rintro d rfl hday
    rw [hcal]
    simp only [if_pos hday]
    rw [renderEntriesList, renderEntriesList]
    apply List.filter_congr
    intro e _
    simp only [passesFilters, hday]

/-- Witness for C7: with `moodFilter = "Sad"` a double click on the "Sad"
bar leaves the timeline unchanged, and with `dateFilter` at timestamp
1000 a double click on the calendar cell of the same day (date key 2000)
leaves the timeline unchanged. -/
theorem C7_witness :
    renderEntriesList [⟨"Sad", "b", 2⟩]
        (chartClick (chartClick (some "Sad") "Sad") "Sad") (some 1000) =
      renderEntriesList [⟨"Sad", "b", 2⟩] (some "Sad") (some 1000) ∧
    renderEntriesList [⟨"Sad", "b", 2⟩] (some "Sad")
        (calendarClick (calendarClick (some 1000) 2000) 2000) =
      renderEntriesList [⟨"Sad", "b", 2⟩] (some "Sad") (some 1000) := by
  have h := C7_double_click_toggle (some "Sad") "Sad" (some 1000) 2000 [⟨"Sad", "b", 2⟩]
  exact ⟨h.2.2.1 (Or.inr rfl), h.2.2.2 1000 rfl (by decide)⟩

/-- C9: a submission with a missing/empty mood or whitespace-only text is
silently discarded — the in-memory entries and the persisted slot are
unchanged (and the handler is total, raising nothing); a submission with
a selected mood and non-empty trimmed text appends exactly one entry and
persists the new collection. -/
theorem C9_submit_validation (st : StoreState) (mood : Option String)
    (rawText : String) (now : Nat) :
    ((mood = none ∨ mood = some "" ∨ jsTrim rawText = "") →
      submitEntry st mood rawText now = st) ∧
    (∀ m, mood = some m → m ≠ "" → jsTrim rawText ≠ "" →
      (submitEntry st mood rawText now).entries =
        st.entries ++ [⟨m, jsTrim rawText, now⟩] ∧
      (submitEntry st mood rawText now).saved =
        saveEntries (st.entries ++ [⟨m, jsTrim rawText, now⟩])) := by
  constructor
  · rintro (rfl | rfl | htext)
    · rfl
    · rw [submitEntry, if_pos rfl]
    · cases mood with
      | none => rfl
      | some m =>
        rw [submitEntry]
        by_cases hm : m = ""
        · rw [if_pos hm]
        · rw [if_neg hm, if_pos htext]
  · rintro m rfl hm htext
    rw [submitEntry, if_neg hm, if_neg htext]
    exact ⟨rfl, rfl⟩

/-- Witness for C9: submitting with no mood selected leaves the store
untouched, while submitting mood "Calm" with text " Walked outside "
appends exactly that one trimmed entry and persists it. -/
theorem C9_witness :
    submitEntry ⟨[], none⟩ none "Walked outside" 5 = ⟨[], none⟩ ∧
    (submitEntry ⟨[], none⟩ (some "Calm") " Walked outside " 5).entries =
      [] ++ [⟨"Calm", jsTrim " Walked outside ", 5⟩] ∧
    (submitEntry ⟨[], none⟩ (some "Calm") " Walked outside " 5).saved =
      saveEntries ([] ++ [⟨"Calm", jsTrim " Walked outside ", 5⟩]) := by
  have h1 := C9_submit_validation ⟨[], none⟩ none "Walked outside" 5
  have h2 := C9_submit_validation ⟨[], none⟩ (some "Calm") " Walked outside " 5
  have h3 := h2.2 "Calm" rfl (by decide) (by decide)
  exact ⟨h1.1 (Or.inl rfl), h3.1, h3.2⟩

/-- C2 counterexample: the two views are *not* drawn from one shared
word→count map.  For the single entry "you you you love", the trending
map holds two words ("you" is not in its stopword set) while the
word-cloud map holds one ("you" is a cloud stopword), so no single ranked
list can yield the trending view as its top 5 and the cloud view as its
top 20. -/
theorem C2_counterexample :
    ¬ ∃ ranked : List (String × Nat),
      updateTrending [⟨"Happy", "you you you love", 1⟩] = ranked.take 5 ∧
      updateWordCloud [⟨"Happy", "you you you love", 1⟩] = ranked.take 20 := by
  rintro ⟨r, ht, hc⟩
  have h1 : (updateTrending [⟨"Happy", "you you you love", 1⟩]).length = 2 := by
    rw [updateTrending, List.length_take, rankWords, List.length_mergeSort]
    decide
  have h2 : (updateWordCloud [⟨"Happy", "you you you love", 1⟩]).length = 1 := by
    rw [updateWordCloud, List.length_take, rankWords, List.length_mergeSort]
    decide
  rw [ht, List.length_take] at h1
  rw [hc, List.length_take] at h2
  omega

theorem foldl_bump_congr (s1 s2 : List String) (ws : List String)
    (f : List (String × Nat)) (h : ∀ w ∈ ws, (w ∈ s1 ↔ w ∈ s2)) :
    ws.foldl (fun g w => if w ∈ s1 then g else bumpWord g w) f =
      ws.foldl (fun g w => if w ∈ s2 then g else bumpWord g w) f := by
  induction ws generalizing f with
  | nil => rfl
  | cons w tl ih =>
    rw [List.foldl_cons, List.foldl_cons]
    have hw := h w (List.mem_cons_self w tl)
    have htl : ∀ x ∈ tl, (x ∈ s1 ↔ x ∈ s2) :=
      fun x hx => h x (List.mem_cons_of_mem w hx)
    by_cases h1 : w ∈ s1
    · rw [if_pos h1, if_pos (hw.mp h1)]
      exact ih _ htl
    · rw [if_neg h1, if_neg (fun h2 => h1 (hw.mpr h2))]
      exact ih _ htl

theorem wordFreqAux_congr (s1 s2 : List String) :
    ∀ (es : List Entry) (f : List (String × Nat)),
    (∀ e ∈ es, ∀ w ∈ tokensOf e.text, (w ∈ s1 ↔ w ∈ s2)) →
    es.foldl (fun freq e =>
        (tokensOf e.text).foldl (fun g w => if w ∈ s1 then g else bumpWord g w) freq) f =
      es.foldl (fun freq e =>
        (tokensOf e.text).foldl (fun g w => if w ∈ s2 then g else bumpWord g w) freq) f := by
  intro es
  induction es with
  | nil => intro f _; rfl
  | cons e tl ih =>
    intro f h
    rw [List.foldl_cons, List.foldl_cons,
      foldl_bump_congr s1 s2 (tokensOf e.text) f (h e (List.mem_cons_self e tl))]
    exact ih _ (fun x hx w hw => h x (List.mem_cons_of_mem e hx) w hw)

theorem wordFreq_congr (s1 s2 : List String) (es : List Entry)
    (h : ∀ e ∈ es, ∀ w ∈ tokensOf e.text, (w ∈ s1 ↔ w ∈ s2)) :
    wordFreq s1 es = wordFreq s2 es := by
  rw [wordFreq, wordFreq]
  exact wordFreqAux_congr s1 s2 es [] h

/-- C2 (amended): trending and word-cloud share the tokenization
(lower-case, `[a-z]` tokens of length ≥ 3) but use *different* stopword
sets — the word-cloud set is the trending set plus "had", "have", "has",
"you", "we" — and each view ranks its own map descending by count,
trending taking the top 5 and the word cloud the top 20.  When no entry
token is one of those five extra stopwords the two maps coincide, and
both views are then prefixes of one and the same ranked word→count
list. -/
theorem C2_trending_wordcloud_stopwords (es : List Entry)
    (h : ∀ e ∈ es, ∀ w ∈ tokensOf e.text,
        w ∉ (["had", "have", "has", "you", "we"] : List String)) :
    wordCloudStopwords = trendingStopwords ++ ["had", "have", "has", "you", "we"] ∧
    updateTrending es = (rankWords (wordFreq wordCloudStopwords es)).take 5 ∧
    updateWordCloud es = (rankWords (wordFreq wordCloudStopwords es)).take 20 := by
  have happ : wordCloudStopwords = trendingStopwords ++ ["had", "have", "has", "you", "we"] := by
    decide
  have hiff : ∀ e ∈ es, ∀ w ∈ tokensOf e.text,
      (w ∈ trendingStopwords ↔ w ∈ wordCloudStopwords) := by
    intro e he w hw
    rw [happ, List.mem_append]
    have hne := h e he w hw
    constructor
    · exact Or.inl
    · rintro (h1 | h1)
      · exact h1
      · exact absurd h1 hne
  have hfreq := wordFreq_congr trendingStopwords wordCloudStopwords es hiff
  refine ⟨happ, ?_, rfl⟩
  rw [updateTrending, hfreq]

/-- Witness for C2: for an entry avoiding the five extra cloud stopwords,
both views are prefixes of the same ranked list. -/
theorem C2_witness :
    wordCloudStopwords = trendingStopwords ++ ["had", "have", "has", "you", "we"] ∧
    updateTrending [⟨"Calm", "love sunshine love", 10⟩] =
      (rankWords (wordFreq wordCloudStopwords [⟨"Calm", "love sunshine love", 10⟩])).take 5 ∧
    updateWordCloud [⟨"Calm", "love sunshine love", 10⟩] =
      (rankWords (wordFreq wordCloudStopwords [⟨"Calm", "love sunshine love", 10⟩])).take 20 :=
  C2_trending_wordcloud_stopwords [⟨"Calm", "love sunshine love", 10⟩] (by decide)

end M2M
